import Mathlib

/-!
Shallow embedding of the story2map repository's self-contained logic:

* the place-list merge/dedup routine `combine_place_extractions`
  (src/utils/place_extraction.py, lines 112-147);
* map-parameter computation for the two rendering back-ends
  (src/utils/map_generator.py `_create_folium_map`, lines 88-117, and
  src/utils/map_handler.py `create_folium_map`, lines 99-181);
* JSON persistence (src/utils/map_handler.py `save_map_data` / `load_map_data`,
  lines 436-488), with the file system modelled as an explicit store;
* geocoding result handling (src/utils/map_handler.py `geocode_place` /
  `geocode_places`, lines 31-97), with the HTTP provider modelled as a
  function from a place name to a response value.

Python dicts are insertion ordered, so the `combined_places` dict is embedded
as an association list where a new key is appended at the end and updating an
existing key rewrites the entry in place.
-/

namespace Story2Map

/-- Python `str.lower()`: character-wise lowercasing. -/
def pyLower (s : String) : String := ⟨s.data.map Char.toLower⟩

/-- Python `str.strip()`: removes leading and trailing whitespace. -/
def pyStrip (s : String) : String :=
  ⟨((s.data.dropWhile Char.isWhitespace).reverse.dropWhile Char.isWhitespace).reverse⟩

/-- Python `str.endswith(suf)`. -/
def pyEndsWith (s suf : String) : Bool := suf.data.isSuffixOf s.data

/-- A raw place candidate produced by one extractor: a Python dict with key
`"name"` and optional keys `"type"` and `"sentiment"`. -/
structure Candidate where
  name : String
  type : Option String := none
  sentiment : Option String := none
  deriving Repr, DecidableEq

/-- A merged canonical place record as built by `combine_place_extractions`:
a dict with keys `"name"`, `"type"`, `"sentiment"`, `"mentions"`. -/
structure CanonicalPlace where
  name : String
  type : String
  sentiment : String
  mentions : Nat
  deriving Repr, DecidableEq

/-- The insertion-ordered `combined_places` dict, keyed by the lower-cased
stripped candidate name. -/
abbrev PlaceMap := List (String × CanonicalPlace)

/-- The dict key the merge uses for a candidate: `place["name"].strip().lower()`. -/
def candKey (c : Candidate) : String := pyLower (pyStrip c.name)

/-- `key in combined_places` on the embedded dict. -/
def containsKey : PlaceMap → String → Bool
  | [], _ => false
  | p :: m, k => if p.1 = k then true else containsKey m k

/-- In-place update of the entry stored at a key (dict mutation
`combined_places[key][...] = ...`); keeps insertion order. -/
def updateEntry : PlaceMap → String → (CanonicalPlace → CanonicalPlace) → PlaceMap
  | [], _, _ => []
  | p :: m, k, f => (if p.1 = k then (p.1, f p.2) else p) :: updateEntry m k f

/-- `combined_places[key]` as a partial lookup. -/
def lookupKey : PlaceMap → String → Option CanonicalPlace
  | [], _ => none
  | p :: m, k => if p.1 = k then some p.2 else lookupKey m k

/-- One iteration of the first loop of `combine_place_extractions`
(src/utils/place_extraction.py lines 119-129): a spaCy candidate is inserted
with `sentiment="neutral"`, `mentions=1` if its key is new, otherwise the
stored entry's `mentions` is incremented. -/
def add_spacy_place (combined : PlaceMap) (place : Candidate) : PlaceMap :=
  let name := pyStrip place.name
  if containsKey combined (pyLower name) then
    updateEntry combined (pyLower name) (fun cp => { cp with mentions := cp.mentions + 1 })
  else
    combined ++ [(pyLower name,
      { name := name, type := place.type.getD "Unknown",
        sentiment := "neutral", mentions := 1 })]

/-- The update applied to an existing entry by the second loop
(src/utils/place_extraction.py lines 141-145): if the incoming candidate
carries a sentiment different from `"neutral"` it overwrites the stored
sentiment; `mentions` is always incremented. -/
def gemini_update (place : Candidate) (cp : CanonicalPlace) : CanonicalPlace :=
  let cp1 := match place.sentiment with
    | some s => if s ≠ "neutral" then { cp with sentiment := s } else cp
    | none => cp
  { cp1 with mentions := cp1.mentions + 1 }

/-- One iteration of the second loop of `combine_place_extractions`
(src/utils/place_extraction.py lines 132-145): a Gemini candidate is inserted
with its own sentiment (default `"neutral"`) if its key is new, otherwise the
stored entry is updated by `gemini_update`. -/
def add_gemini_place (combined : PlaceMap) (place : Candidate) : PlaceMap :=
  let name := pyStrip place.name
  if containsKey combined (pyLower name) then
    updateEntry combined (pyLower name) (gemini_update place)
  else
    combined ++ [(pyLower name,
      { name := name, type := place.type.getD "Unknown",
        sentiment := place.sentiment.getD "neutral", mentions := 1 })]

/-- The internal dict after both loops of `combine_place_extractions`. -/
def combine_alist (spacy_places gemini_places : List Candidate) : PlaceMap :=
  gemini_places.foldl add_gemini_place (spacy_places.foldl add_spacy_place [])

/-- `combine_place_extractions(spacy_places, gemini_places)`
(src/utils/place_extraction.py lines 112-147): builds the insertion-ordered
dict and returns `list(combined_places.values())`. -/
def combine_place_extractions (spacy_places gemini_places : List Candidate) :
    List CanonicalPlace :=
  (combine_alist spacy_places gemini_places).map Prod.snd

/-- The keys of the embedded dict, in insertion order. -/
def keysOf (m : PlaceMap) : List String := m.map Prod.fst

/-- Number of candidates in a list whose dict key is `k`. -/
def countKey : List Candidate → String → Nat
  | [], _ => 0
  | c :: l, k => (if candKey c = k then 1 else 0) + countKey l k

/-- The first candidate in a list whose dict key is `k`. -/
def findFirst : List Candidate → String → Option Candidate
  | [], _ => none
  | c :: l, k => if candKey c = k then some c else findFirst l k

/-- Mentions stored at a key, `0` when the key is absent. -/
def mentionsAt (m : PlaceMap) (k : String) : Nat :=
  match lookupKey m k with
  | some cp => cp.mentions
  | none => 0

/-- First-seen order of the keys of a list, skipping keys already seen. -/
def firstSeenAux (seen : List String) : List String → List String
  | [] => []
  | k :: ks => if k ∈ seen then firstSeenAux seen ks else k :: firstSeenAux (k :: seen) ks

/-- The fresh entry inserted for a new key by the spaCy loop. -/
def freshSpacy (c : Candidate) : CanonicalPlace :=
  { name := pyStrip c.name, type := c.type.getD "Unknown",
    sentiment := "neutral", mentions := 1 }

/-- The fresh entry inserted for a new key by the Gemini loop. -/
def freshGemini (c : Candidate) : CanonicalPlace :=
  { name := pyStrip c.name, type := c.type.getD "Unknown",
    sentiment := c.sentiment.getD "neutral", mentions := 1 }

/-- Common shape of both loop bodies: update an existing key in place or
append a fresh entry. -/
def addEntry (m : PlaceMap) (k : String) (f : CanonicalPlace → CanonicalPlace)
    (fresh : CanonicalPlace) : PlaceMap :=
  if containsKey m k then updateEntry m k f else m ++ [(k, fresh)]

/-- The sentiments carried by the Gemini candidates with dict key `k`, kept in
list order, restricted to the present, non-`"neutral"` ones. -/
def nonNeutralSentiments : List Candidate → String → List String
  | [], _ => []
  | c :: l, k =>
    if candKey c = k then
      match c.sentiment with
      | some s =>
        if s ≠ "neutral" then s :: nonNeutralSentiments l k
        else nonNeutralSentiments l k
      | none => nonNeutralSentiments l k
    else nonNeutralSentiments l k

/-- A location dict as consumed by `MapGenerator._create_folium_map`
(src/utils/map_generator.py): optional `"latitude"` / `"longitude"` keys
(`none` models both an absent key and a `None` value); coordinates are
modelled as rationals. -/
structure MGLocation where
  latitude : Option ℚ := none
  longitude : Option ℚ := none
  deriving Repr, DecidableEq

/-- The comprehension filter `for loc in locations if loc.get('latitude')`:
keeps a coordinate only when the key is present and its value truthy
(non-zero, non-`None`). -/
def truthyVals (l : List (Option ℚ)) : List ℚ :=
  l.filterMap fun o =>
    match o with
    | some x => if x ≠ 0 then some x else none
    | none => none

/-- Python `max` on a list; the `0` placeholder on `[]` is never reached
because the embedded code guards non-emptiness first. -/
def listMax : List ℚ → ℚ
  | [] => 0
  | x :: xs => xs.foldl max x

/-- Python `min` on a list, with the same convention as `listMax`. -/
def listMin : List ℚ → ℚ
  | [] => 0
  | x :: xs => xs.foldl min x

/-- Python `sum`. -/
def listSum (l : List ℚ) : ℚ := l.foldl (· + ·) 0

/-- The zoom threshold chain of `MapGenerator._create_folium_map`
(src/utils/map_generator.py lines 105-114), applied to
`max_range = max(lat_range, lng_range)`. -/
def zoomFor (max_range : ℚ) : Nat :=
  if max_range > 20 then 4
  else if max_range > 10 then 6
  else if max_range > 5 then 8
  else if max_range > 1 then 10
  else 12

/-- Center and zoom computed by `MapGenerator._create_folium_map`
(src/utils/map_generator.py lines 88-117). -/
def mg_create_folium_map_params (locations : List MGLocation) : (ℚ × ℚ) × Nat :=
  match locations with
  | [] => ((0, 0), 2)
  | _ =>
    let lats := truthyVals (locations.map (·.latitude))
    let lngs := truthyVals (locations.map (·.longitude))
    if lats ≠ [] ∧ lngs ≠ [] then
      ((listSum lats / (lats.length : ℚ), listSum lngs / (lngs.length : ℚ)),
        zoomFor (max (listMax lats - listMin lats) (listMax lngs - listMin lngs)))
    else ((0, 0), 2)

/-- A geocoded place dict as consumed by `create_folium_map`
(src/utils/map_handler.py); `none` models an absent `"lat"` / `"lng"` key. -/
structure HPlace where
  name : String := ""
  lat : Option ℚ := none
  lng : Option ℚ := none
  sentiment : Option String := none
  deriving Repr, DecidableEq

/-- Center and zoom of the Folium map built by `create_folium_map`
(src/utils/map_handler.py lines 113-127).  Note the `lats` and `lngs` lists
are filtered independently, each only on the presence of its own key. -/
def create_folium_map_params (places : List HPlace) : (ℚ × ℚ) × Nat :=
  match places with
  | [] => ((0, 0), 2)
  | _ =>
    let lats := places.filterMap (·.lat)
    let lngs := places.filterMap (·.lng)
    if lats = [] ∨ lngs = [] then ((0, 0), 2)
    else
      ((listSum lats / (lats.length : ℚ), listSum lngs / (lngs.length : ℚ)), 10)

/-- The places that receive markers in `create_folium_map`
(src/utils/map_handler.py lines 133-135): a place lacking `"lat"` or `"lng"`
is skipped by `continue`. -/
def folium_marker_places (places : List HPlace) : List HPlace :=
  places.filter fun p => p.lat.isSome && p.lng.isSome

/-- The complete (lat, lng) pairs of the places carrying both coordinates. -/
def completeCoords (places : List HPlace) : List (ℚ × ℚ) :=
  places.filterMap fun p =>
    match p.lat, p.lng with
    | some a, some b => some (a, b)
    | _, _ => none

/-- Written after the spec's words, for comparison with
`create_folium_map_params`: "Center = arithmetic mean of all valid lat/lng
pairs (places without both coordinates are excluded from the mean)". -/
def specCenter (places : List HPlace) : Option (ℚ × ℚ) :=
  match completeCoords places with
  | [] => none
  | l =>
    some (listSum (l.map Prod.fst) / (l.length : ℚ),
      listSum (l.map Prod.snd) / (l.length : ℚ))

/-- A JSON-serializable primitive field value. -/
inductive Prim where
  | str (s : String)
  | num (q : ℚ)
  | bool (b : Bool)
  | null
  deriving Repr, DecidableEq

/-- A place dict whose fields are all primitives, as saved by
`save_map_data`. -/
abbrev PlaceDoc := List (String × Prim)

/-- The `data/` directory modelled as a store from file path to the JSON
document (one list of place dicts) it holds; a fresh write shadows any older
entry at the same path. -/
abbrev FileStore := List (String × List PlaceDoc)

/-- Reading a file from the store; `none` models `FileNotFoundError`. -/
def readFile : FileStore → String → Option (List PlaceDoc)
  | [], _ => none
  | f :: fs, path => if f.1 = path then some f.2 else readFile fs path

/-- `filename += ".json" if not filename.endswith(".json")`
(src/utils/map_handler.py lines 452-453 and 477-478). -/
def withJsonExt (filename : String) : String :=
  if pyEndsWith filename ".json" then filename else filename ++ ".json"

/-- `save_map_data(places, filename)` (src/utils/map_handler.py lines
436-463): writes the whole place list as one JSON document at
`data/<filename>.json`, overwriting unconditionally. -/
def save_map_data (places : List PlaceDoc) (filename : String)
    (store : FileStore) : FileStore :=
  ("data/" ++ withJsonExt filename, places) :: store

/-- `load_map_data(filename)` (src/utils/map_handler.py lines 465-488): reads
`data/<filename>.json`; a missing or unreadable file raises, which the
`except` clause turns into `[]`. -/
def load_map_data (filename : String) (store : FileStore) : List PlaceDoc :=
  match readFile store ("data/" ++ withJsonExt filename) with
  | some places => places
  | none => []

/-- One result object of the Geocoding API response body. -/
structure GeoResult where
  formatted_address : String
  lat : ℚ
  lng : ℚ
  place_id : Option String := none
  types : List String := []
  deriving Repr, DecidableEq

/-- The observable outcome of one geocoding HTTP call: either the request or
the JSON decoding raises (`failure`), or a body with a `"status"` string and
a `"results"` array arrives. -/
inductive GeoResponse where
  | failure
  | ok (status : String) (results : List GeoResult)
  deriving Repr, DecidableEq

/-- The dict returned by a successful `geocode_place`. -/
structure GeocodedPlace where
  name : String
  formatted_address : String
  lat : ℚ
  lng : ℚ
  place_id : String
  types : List String
  deriving Repr, DecidableEq

/-- `geocode_place(place_name)` (src/utils/map_handler.py lines 31-67), with
the HTTP provider modelled as a function from the queried name to a response
and the API key as an optional configuration value. Every failure path —
missing key, raised exception, non-`"OK"` status, empty result list — takes
a `return None` branch; the embedding is a total function, matching the fact
that the `try/except` lets no exception escape to the caller. -/
def geocode_place (provider : String → GeoResponse) (api_key : Option String)
    (place_name : String) : Option GeocodedPlace :=
  match api_key with
  | none => none
  | some _ =>
    match provider place_name with
    | .failure => none
    | .ok status results =>
      match results with
      | [] => none
      | r :: _ =>
        if status = "OK" then
          some { name := place_name, formatted_address := r.formatted_address,
                 lat := r.lat, lng := r.lng, place_id := r.place_id.getD "",
                 types := r.types }
        else none

/-- A place dict entering `geocode_places`. -/
structure InputPlace where
  name : String
  type : String := "Unknown"
  sentiment : String := "neutral"
  mentions : Nat := 0
  deriving Repr, DecidableEq

/-- The merged dict `{**place, **geocoded_place}`: geocoded keys overwrite,
the original `type`, `sentiment`, `mentions` survive. -/
structure MergedPlace where
  name : String
  type : String
  sentiment : String
  mentions : Nat
  formatted_address : String
  lat : ℚ
  lng : ℚ
  place_id : String
  types : List String
  deriving Repr, DecidableEq

/-- `{**place, **geocoded_place}` (src/utils/map_handler.py line 88). -/
def merge_place (place : InputPlace) (g : GeocodedPlace) : MergedPlace :=
  { name := g.name, type := place.type, sentiment := place.sentiment,
    mentions := place.mentions, formatted_address := g.formatted_address,
    lat := g.lat, lng := g.lng, place_id := g.place_id, types := g.types }

/-- `geocode_places(places)` (src/utils/map_handler.py lines 69-97): geocodes
each place in input order and appends only the successfully geocoded ones to
the output list. -/
def geocode_places (provider : String → GeoResponse) (api_key : Option String)
    (places : List InputPlace) : List MergedPlace :=
  places.foldl
    (fun geocoded_places place =>
      match geocode_place provider api_key place.name with
      | some g => geocoded_places ++ [merge_place place g]
      | none => geocoded_places)
    []

theorem lookupKey_append_of_none {m : PlaceMap} {k : String}
    (h : lookupKey m k = none) (m' : PlaceMap) :
    lookupKey (m ++ m') k = lookupKey m' k := by
  induction m with
  | nil => simp
  | cons p m ih =>
    by_cases hp : p.1 = k
    · simp [lookupKey, hp] at h
    · simp only [lookupKey, hp, if_false, List.cons_append] at h ⊢
      exact ih h

theorem lookupKey_append_of_some {m : PlaceMap} {k : String} {v : CanonicalPlace}
    (h : lookupKey m k = some v) (m' : PlaceMap) :
    lookupKey (m ++ m') k = some v := by
  induction m with
  | nil => simp [lookupKey] at h
  | cons p m ih =>
    by_cases hp : p.1 = k
    · simp only [lookupKey, hp, if_true] at h
      simp [lookupKey, hp, h]
    · simp only [lookupKey, hp, if_false] at h
      simp only [List.cons_append, lookupKey, hp, if_false]
      exact ih h

theorem lookupKey_updateEntry_self (m : PlaceMap) (k : String)
    (f : CanonicalPlace → CanonicalPlace) :
    lookupKey (updateEntry m k f) k = (lookupKey m k).map f := by
  induction m with
  | nil => simp [updateEntry, lookupKey]
  | cons p m ih =>
    by_cases hp : p.1 = k
    · simp [updateEntry, lookupKey, hp]
    · simp [updateEntry, lookupKey, hp, ih]

theorem lookupKey_updateEntry_ne (m : PlaceMap) {k k' : String}
    (h : k' ≠ k) (f : CanonicalPlace → CanonicalPlace) :
    lookupKey (updateEntry m k f) k' = lookupKey m k' := by
  induction m with
  | nil => simp [updateEntry, lookupKey]
  | cons p m ih =>
    by_cases hp : p.1 = k
    · have hp' : p.1 ≠ k' := fun hh => h (hh ▸ hp ▸ rfl)
      simp [updateEntry, lookupKey, hp, hp', Ne.symm h, ih]
    · by_cases hp' : p.1 = k'
      · simp [updateEntry, lookupKey, hp, hp', h]
      · simp [updateEntry, lookupKey, hp, hp', h, ih]

@[simp] theorem keysOf_nil : keysOf [] = [] := rfl

@[simp] theorem keysOf_append (m m' : PlaceMap) :
    keysOf (m ++ m') = keysOf m ++ keysOf m' := by
  simp [keysOf]

theorem keysOf_updateEntry (m : PlaceMap) (k : String)
    (f : CanonicalPlace → CanonicalPlace) :
    keysOf (updateEntry m k f) = keysOf m := by
  induction m with
  | nil => rfl
  | cons p m ih =>
    by_cases hp : p.1 = k <;> simp [updateEntry, keysOf, hp] <;>
      simpa [keysOf] using ih

theorem containsKey_iff_mem (m : PlaceMap) (k : String) :
    containsKey m k = true ↔ k ∈ keysOf m := by
  induction m with
  | nil => simp [containsKey]
  | cons p m ih =>
    by_cases hp : p.1 = k
    · simp [containsKey, keysOf, hp]
    · simp only [containsKey, hp, if_false, keysOf, List.map_cons, List.mem_cons]
      rw [ih]
      constructor
      · intro h; exact Or.inr h
      · rintro (h | h)
        · exact absurd h.symm hp
        · exact h

theorem containsKey_iff_lookup_isSome (m : PlaceMap) (k : String) :
    containsKey m k = true ↔ (lookupKey m k).isSome := by
  induction m with
  | nil => simp [containsKey, lookupKey]
  | cons p m ih =>
    by_cases hp : p.1 = k <;> simp [containsKey, lookupKey, hp, ih]

theorem lookupKey_eq_none_of_not_contains {m : PlaceMap} {k : String}
    (h : containsKey m k = false) : lookupKey m k = none := by
  cases hl : lookupKey m k with
  | none => rfl
  | some v =>
    have := (containsKey_iff_lookup_isSome m k).mpr (by simp [hl])
    rw [this] at h
    cases h

theorem lookupKey_mem {m : PlaceMap} {k : String} {v : CanonicalPlace}
    (h : lookupKey m k = some v) : (k, v) ∈ m := by
  induction m with
  | nil => simp [lookupKey] at h
  | cons p m ih =>
    by_cases hp : p.1 = k
    · obtain ⟨a, b⟩ := p
      have ha : a = k := hp
      subst ha
      simp [lookupKey] at h
      subst h
      exact List.mem_cons_self _ _
    · simp only [lookupKey, hp, if_false] at h
      exact List.mem_cons_of_mem _ (ih h)

theorem lookupKey_of_mem {m : PlaceMap} {k : String} {v : CanonicalPlace}
    (hm : (k, v) ∈ m) (hnd : (keysOf m).Nodup) : lookupKey m k = some v := by
  induction m with
  | nil => simp at hm
  | cons p m ih =>
    simp only [keysOf, List.map_cons, List.nodup_cons] at hnd
    rcases List.mem_cons.mp hm with h | h
    · subst h
      simp [lookupKey]
    · have hk : k ∈ keysOf m := by
        simpa [keysOf] using List.mem_map_of_mem Prod.fst h
      have hp : p.1 ≠ k := fun he => hnd.1 (he ▸ hk)
      simp only [lookupKey, hp, if_false]
      exact ih h (by simpa [keysOf] using hnd.2)

theorem add_spacy_eq_addEntry (m : PlaceMap) (c : Candidate) :
    add_spacy_place m c =
      addEntry m (candKey c) (fun cp => { cp with mentions := cp.mentions + 1 })
        (freshSpacy c) := rfl

theorem add_gemini_eq_addEntry (m : PlaceMap) (c : Candidate) :
    add_gemini_place m c =
      addEntry m (candKey c) (gemini_update c) (freshGemini c) := rfl

theorem gemini_update_mentions (c : Candidate) (cp : CanonicalPlace) :
    (gemini_update c cp).mentions = cp.mentions + 1 := by
  unfold gemini_update
  cases c.sentiment with
  | none => rfl
  | some s =>
    by_cases hs : s ≠ "neutral" <;> simp [hs]

theorem gemini_update_name (c : Candidate) (cp : CanonicalPlace) :
    (gemini_update c cp).name = cp.name := by
  unfold gemini_update
  cases c.sentiment with
  | none => rfl
  | some s =>
    by_cases hs : s ≠ "neutral" <;> simp [hs]

theorem gemini_update_type (c : Candidate) (cp : CanonicalPlace) :
    (gemini_update c cp).type = cp.type := by
  unfold gemini_update
  cases c.sentiment with
  | none => rfl
  | some s =>
    by_cases hs : s ≠ "neutral" <;> simp [hs]

theorem lookupKey_addEntry_self (m : PlaceMap) (k : String)
    (f : CanonicalPlace → CanonicalPlace) (fresh : CanonicalPlace) :
    lookupKey (addEntry m k f fresh) k =
      some (match lookupKey m k with
        | some cp => f cp
        | none => fresh) := by
  by_cases hc : containsKey m k = true
  · obtain ⟨cp, hcp⟩ := Option.isSome_iff_exists.mp
      ((containsKey_iff_lookup_isSome m k).mp hc)
    simp only [addEntry, hc, if_true]
    rw [lookupKey_updateEntry_self, hcp]
    rfl
  · have hfalse : containsKey m k = false := by simpa using hc
    have hnone := lookupKey_eq_none_of_not_contains hfalse
    simp only [addEntry, hfalse, Bool.false_eq_true, if_false]
    rw [lookupKey_append_of_none hnone, hnone]
    simp [lookupKey]

theorem lookupKey_addEntry_ne (m : PlaceMap) {k k' : String} (h : k' ≠ k)
    (f : CanonicalPlace → CanonicalPlace) (fresh : CanonicalPlace) :
    lookupKey (addEntry m k f fresh) k' = lookupKey m k' := by
  by_cases hc : containsKey m k = true
  · simp only [addEntry, hc, if_true]
    exact lookupKey_updateEntry_ne m h f
  · have hfalse : containsKey m k = false := by simpa using hc
    simp only [addEntry, hfalse, Bool.false_eq_true, if_false]
    cases hl : lookupKey m k' with
    | some v => exact lookupKey_append_of_some hl _
    | none =>
      rw [lookupKey_append_of_none hl]
      simp [lookupKey, Ne.symm h]

theorem keysOf_addEntry (m : PlaceMap) (k : String)
    (f : CanonicalPlace → CanonicalPlace) (fresh : CanonicalPlace) :
    keysOf (addEntry m k f fresh) =
      keysOf m ++ (if containsKey m k = true then [] else [k]) := by
  by_cases hc : containsKey m k = true
  · simp [addEntry, hc, keysOf_updateEntry]
  · have hfalse : containsKey m k = false := by simpa using hc
    simp [addEntry, hfalse, keysOf]

theorem firstSeenAux_cons_mem {s : List String} {k : String} (ks : List String)
    (hk : k ∈ s) : firstSeenAux s (k :: ks) = firstSeenAux s ks := by
  simp [firstSeenAux, hk]

theorem firstSeenAux_cons_not_mem {s : List String} {k : String} (ks : List String)
    (hk : k ∉ s) : firstSeenAux s (k :: ks) = k :: firstSeenAux (k :: s) ks := by
  simp [firstSeenAux, hk]

theorem mem_firstSeenAux (l : List String) :
    ∀ (s : List String) (x : String), x ∈ firstSeenAux s l ↔ x ∈ l ∧ x ∉ s := by
  induction l with
  | nil => intro s x; simp [firstSeenAux]
  | cons k ks ih =>
    intro s x
    by_cases hk : k ∈ s
    · rw [firstSeenAux_cons_mem ks hk, ih, List.mem_cons]
      constructor
      · exact fun h => ⟨Or.inr h.1, h.2⟩
      · rintro ⟨h1 | h1, h2⟩
        · exact absurd (h1.symm ▸ hk) h2
        · exact ⟨h1, h2⟩
    · rw [firstSeenAux_cons_not_mem ks hk, List.mem_cons, ih]
      simp only [List.mem_cons]
      by_cases hxk : x = k
      · subst hxk
        tauto
      · tauto

theorem nodup_firstSeenAux (l : List String) : ∀ s, (firstSeenAux s l).Nodup := by
  induction l with
  | nil => intro s; simp [firstSeenAux]
  | cons k ks ih =>
    intro s
    by_cases hk : k ∈ s
    · rw [firstSeenAux_cons_mem ks hk]
      exact ih s
    · rw [firstSeenAux_cons_not_mem ks hk]
      refine List.nodup_cons.mpr ⟨fun hmem => ?_, ih _⟩
      rw [mem_firstSeenAux] at hmem
      exact hmem.2 (List.mem_cons_self _ _)

theorem firstSeenAux_congr : ∀ (l s₁ s₂ : List String),
    (∀ x, x ∈ s₁ ↔ x ∈ s₂) → firstSeenAux s₁ l = firstSeenAux s₂ l := by
  intro l
  induction l with
  | nil => intro s₁ s₂ _; rfl
  | cons k ks ih =>
    intro s₁ s₂ h
    by_cases hk : k ∈ s₁
    · have hk₂ : k ∈ s₂ := (h k).mp hk
      rw [firstSeenAux_cons_mem ks hk, firstSeenAux_cons_mem ks hk₂]
      exact ih s₁ s₂ h
    · have hk₂ : k ∉ s₂ := fun hx => hk ((h k).mpr hx)
      rw [firstSeenAux_cons_not_mem ks hk, firstSeenAux_cons_not_mem ks hk₂]
      congr 1
      exact ih (k :: s₁) (k :: s₂) fun x => by simp [List.mem_cons, h x]

theorem firstSeenAux_append (l₁ l₂ : List String) : ∀ s,
    firstSeenAux s (l₁ ++ l₂) =
      firstSeenAux s l₁ ++ firstSeenAux (s ++ firstSeenAux s l₁) l₂ := by
  induction l₁ with
  | nil =>
    intro s
    simp only [List.nil_append, firstSeenAux]
    exact (firstSeenAux_congr l₂ (s ++ []) s (by simp)).symm
  | cons k ks ih =>
    intro s
    by_cases hk : k ∈ s
    · rw [List.cons_append, firstSeenAux_cons_mem _ hk, firstSeenAux_cons_mem _ hk,
        ih s]
    · rw [List.cons_append, firstSeenAux_cons_not_mem _ hk,
        firstSeenAux_cons_not_mem _ hk, ih (k :: s)]
      simp only [List.cons_append, List.cons.injEq, true_and]
      congr 1
      exact firstSeenAux_congr l₂ _ _ fun x => by
        simp only [List.mem_append, List.mem_cons]
        tauto

theorem firstSeenAux_of_nodup : ∀ (l : List String) (s : List String),
    (∀ x ∈ l, x ∉ s) → l.Nodup → firstSeenAux s l = l := by
  intro l
  induction l with
  | nil => intro s _ _; rfl
  | cons k ks ih =>
    intro s hdisj hnd
    have hk : k ∉ s := hdisj k (List.mem_cons_self _ _)
    rw [firstSeenAux_cons_not_mem ks hk, List.cons.injEq]
    refine ⟨rfl, ih (k :: s) (fun x hx hmem => ?_) (List.nodup_cons.mp hnd).2⟩
    rcases List.mem_cons.mp hmem with h | h
    · exact (List.nodup_cons.mp hnd).1 (h ▸ hx)
    · exact hdisj x (List.mem_cons_of_mem _ hx) h

theorem keysOf_foldl (add : PlaceMap → Candidate → PlaceMap)
    (hadd : ∀ m c, keysOf (add m c) =
      keysOf m ++ (if containsKey m (candKey c) = true then [] else [candKey c])) :
    ∀ (l : List Candidate) (m : PlaceMap),
      keysOf (l.foldl add m) = keysOf m ++ firstSeenAux (keysOf m) (l.map candKey) := by
  intro l
  induction l with
  | nil => intro m; simp [firstSeenAux]
  | cons c l ih =>
    intro m
    rw [List.foldl_cons, ih (add m c), hadd m c, List.map_cons]
    by_cases hc : containsKey m (candKey c) = true
    · have hmem : candKey c ∈ keysOf m := (containsKey_iff_mem m _).mp hc
      rw [if_pos hc, List.append_nil, firstSeenAux_cons_mem _ hmem]
    · have hmem : candKey c ∉ keysOf m := fun hx => hc ((containsKey_iff_mem m _).mpr hx)
      rw [if_neg hc, firstSeenAux_cons_not_mem _ hmem, List.append_assoc]
      congr 1
      rw [List.singleton_append]
      congr 1
      exact firstSeenAux_congr _ _ _ fun x => by
        simp only [List.mem_append, List.mem_cons]
        tauto

theorem mentionsAt_addEntry (m : PlaceMap) (k : String)
    (f : CanonicalPlace → CanonicalPlace) (fresh : CanonicalPlace)
    (hf : ∀ cp, (f cp).mentions = cp.mentions + 1) (hfresh : fresh.mentions = 1) :
    ∀ k', mentionsAt (addEntry m k f fresh) k' =
      mentionsAt m k' + (if k = k' then 1 else 0) := by
  intro k'
  by_cases hk : k = k'
  · subst hk
    unfold mentionsAt
    rw [lookupKey_addEntry_self]
    cases h : lookupKey m k with
    | some cp => simp [hf]
    | none => simp [hfresh]
  · unfold mentionsAt
    rw [lookupKey_addEntry_ne m (fun he => hk he.symm)]
    simp [hk]

theorem mentionsAt_add_spacy (m : PlaceMap) (c : Candidate) (k : String) :
    mentionsAt (add_spacy_place m c) k =
      mentionsAt m k + (if candKey c = k then 1 else 0) := by
  rw [add_spacy_eq_addEntry]
  exact mentionsAt_addEntry m (candKey c) _ _ (fun cp => rfl) rfl k

theorem mentionsAt_add_gemini (m : PlaceMap) (c : Candidate) (k : String) :
    mentionsAt (add_gemini_place m c) k =
      mentionsAt m k + (if candKey c = k then 1 else 0) := by
  rw [add_gemini_eq_addEntry]
  exact mentionsAt_addEntry m (candKey c) _ _ (gemini_update_mentions c) rfl k

theorem mentionsAt_foldl (add : PlaceMap → Candidate → PlaceMap)
    (hadd : ∀ m c k, mentionsAt (add m c) k =
      mentionsAt m k + (if candKey c = k then 1 else 0)) :
    ∀ (l : List Candidate) (m : PlaceMap) (k : String),
      mentionsAt (l.foldl add m) k = mentionsAt m k + countKey l k := by
  intro l
  induction l with
  | nil => intro m k; simp [countKey]
  | cons c l ih =>
    intro m k
    rw [List.foldl_cons, ih, hadd]
    by_cases hk : candKey c = k
    · simp [countKey, hk]
      omega
    · simp [countKey, hk]

theorem lookupKey_addEntry_none_iff (m : PlaceMap) (k : String)
    (f : CanonicalPlace → CanonicalPlace) (fresh : CanonicalPlace) (k' : String) :
    lookupKey (addEntry m k f fresh) k' = none ↔
      (lookupKey m k' = none ∧ k ≠ k') := by
  by_cases hk : k = k'
  · subst hk
    rw [lookupKey_addEntry_self]
    simp
  · rw [lookupKey_addEntry_ne m (fun he => hk he.symm)]
    simp [hk]

theorem lookup_none_foldl (add : PlaceMap → Candidate → PlaceMap)
    (hadd : ∀ m c k, lookupKey (add m c) k = none ↔
      (lookupKey m k = none ∧ candKey c ≠ k)) :
    ∀ (l : List Candidate) (m : PlaceMap) (k : String),
      lookupKey (l.foldl add m) k = none ↔
        (lookupKey m k = none ∧ countKey l k = 0) := by
  intro l
  induction l with
  | nil => intro m k; simp [countKey]
  | cons c l ih =>
    intro m k
    rw [List.foldl_cons, ih, hadd]
    by_cases hk : candKey c = k
    · subst hk
      constructor
      · rintro ⟨⟨_, h2⟩, _⟩
        exact absurd rfl h2
      · rintro ⟨_, h2⟩
        exfalso
        rw [countKey, if_pos rfl] at h2
        omega
    · constructor
      · rintro ⟨⟨h1, _⟩, h3⟩
        refine ⟨h1, ?_⟩
        rw [countKey, if_neg hk]
        omega
      · rintro ⟨h1, h2⟩
        rw [countKey, if_neg hk] at h2
        exact ⟨⟨h1, hk⟩, by omega⟩

theorem nameType_foldl (add : PlaceMap → Candidate → PlaceMap)
    (hne : ∀ m c {k}, k ≠ candKey c → lookupKey (add m c) k = lookupKey m k)
    (hsome : ∀ m c, lookupKey (add m c) (candKey c) ≠ none)
    (hself : ∀ m c cp', lookupKey (add m c) (candKey c) = some cp' →
      (∃ cp, lookupKey m (candKey c) = some cp ∧ cp'.name = cp.name ∧
        cp'.type = cp.type) ∨
      (lookupKey m (candKey c) = none ∧ cp'.name = pyStrip c.name ∧
        cp'.type = c.type.getD "Unknown")) :
    ∀ (l : List Candidate) (m : PlaceMap) (k : String) (cp : CanonicalPlace),
      lookupKey (l.foldl add m) k = some cp →
      (∃ cp0, lookupKey m k = some cp0 ∧ cp.name = cp0.name ∧ cp.type = cp0.type) ∨
      (lookupKey m k = none ∧ ∃ c, findFirst l k = some c ∧
        cp.name = pyStrip c.name ∧ cp.type = c.type.getD "Unknown") := by
  intro l
  induction l with
  | nil =>
    intro m k cp h
    exact Or.inl ⟨cp, h, rfl, rfl⟩
  | cons c l ih =>
    intro m k cp h
    rw [List.foldl_cons] at h
    rcases ih (add m c) k cp h with ⟨cp0, h1, h2, h3⟩ | ⟨h1, c', h2, h3, h4⟩
    · by_cases hk : k = candKey c
      · subst hk
        rcases hself m c cp0 h1 with ⟨cp1, g1, g2, g3⟩ | ⟨g1, g2, g3⟩
        · exact Or.inl ⟨cp1, g1, h2.trans g2, h3.trans g3⟩
        · refine Or.inr ⟨g1, c, ?_, h2.trans g2, h3.trans g3⟩
          rw [findFirst, if_pos rfl]
      · rw [hne m c hk] at h1
        exact Or.inl ⟨cp0, h1, h2, h3⟩
    · by_cases hk : k = candKey c
      · subst hk
        exact absurd h1 (hsome m c)
      · rw [hne m c hk] at h1
        refine Or.inr ⟨h1, c', ?_, h3, h4⟩
        rw [findFirst, if_neg (fun he => hk he.symm)]
        exact h2

theorem keysOf_add_spacy (m : PlaceMap) (c : Candidate) :
    keysOf (add_spacy_place m c) =
      keysOf m ++ (if containsKey m (candKey c) = true then [] else [candKey c]) := by
  rw [add_spacy_eq_addEntry]
  exact keysOf_addEntry m (candKey c) _ _

theorem keysOf_add_gemini (m : PlaceMap) (c : Candidate) :
    keysOf (add_gemini_place m c) =
      keysOf m ++ (if containsKey m (candKey c) = true then [] else [candKey c]) := by
  rw [add_gemini_eq_addEntry]
  exact keysOf_addEntry m (candKey c) _ _

theorem lookup_none_add_spacy (m : PlaceMap) (c : Candidate) (k : String) :
    lookupKey (add_spacy_place m c) k = none ↔
      (lookupKey m k = none ∧ candKey c ≠ k) := by
  rw [add_spacy_eq_addEntry]
  exact lookupKey_addEntry_none_iff m (candKey c) _ _ k

theorem lookup_none_add_gemini (m : PlaceMap) (c : Candidate) (k : String) :
    lookupKey (add_gemini_place m c) k = none ↔
      (lookupKey m k = none ∧ candKey c ≠ k) := by
  rw [add_gemini_eq_addEntry]
  exact lookupKey_addEntry_none_iff m (candKey c) _ _ k

theorem lookup_ne_add_spacy (m : PlaceMap) (c : Candidate) {k : String}
    (h : k ≠ candKey c) : lookupKey (add_spacy_place m c) k = lookupKey m k := by
  rw [add_spacy_eq_addEntry]
  exact lookupKey_addEntry_ne m h _ _

theorem lookup_ne_add_gemini (m : PlaceMap) (c : Candidate) {k : String}
    (h : k ≠ candKey c) : lookupKey (add_gemini_place m c) k = lookupKey m k := by
  rw [add_gemini_eq_addEntry]
  exact lookupKey_addEntry_ne m h _ _

theorem lookup_some_add_spacy (m : PlaceMap) (c : Candidate) :
    lookupKey (add_spacy_place m c) (candKey c) ≠ none := by
  rw [add_spacy_eq_addEntry, lookupKey_addEntry_self]
  simp

theorem lookup_some_add_gemini (m : PlaceMap) (c : Candidate) :
    lookupKey (add_gemini_place m c) (candKey c) ≠ none := by
  rw [add_gemini_eq_addEntry, lookupKey_addEntry_self]
  simp

theorem nameType_self_add_spacy (m : PlaceMap) (c : Candidate) (cp' : CanonicalPlace)
    (h : lookupKey (add_spacy_place m c) (candKey c) = some cp') :
    (∃ cp, lookupKey m (candKey c) = some cp ∧ cp'.name = cp.name ∧
      cp'.type = cp.type) ∨
    (lookupKey m (candKey c) = none ∧ cp'.name = pyStrip c.name ∧
      cp'.type = c.type.getD "Unknown") := by
  rw [add_spacy_eq_addEntry, lookupKey_addEntry_self] at h
  cases hl : lookupKey m (candKey c) with
  | some cp =>
    rw [hl] at h
    simp only [Option.some.injEq] at h
    subst h
    exact Or.inl ⟨cp, rfl, rfl, rfl⟩
  | none =>
    rw [hl] at h
    simp only [Option.some.injEq] at h
    subst h
    exact Or.inr ⟨rfl, rfl, rfl⟩

theorem nameType_self_add_gemini (m : PlaceMap) (c : Candidate) (cp' : CanonicalPlace)
    (h : lookupKey (add_gemini_place m c) (candKey c) = some cp') :
    (∃ cp, lookupKey m (candKey c) = some cp ∧ cp'.name = cp.name ∧
      cp'.type = cp.type) ∨
    (lookupKey m (candKey c) = none ∧ cp'.name = pyStrip c.name ∧
      cp'.type = c.type.getD "Unknown") := by
  rw [add_gemini_eq_addEntry, lookupKey_addEntry_self] at h
  cases hl : lookupKey m (candKey c) with
  | some cp =>
    rw [hl] at h
    simp only [Option.some.injEq] at h
    subst h
    exact Or.inl ⟨cp, rfl, gemini_update_name c cp, gemini_update_type c cp⟩
  | none =>
    rw [hl] at h
    simp only [Option.some.injEq] at h
    subst h
    exact Or.inr ⟨rfl, rfl, rfl⟩

theorem mem_updateEntry {m : PlaceMap} {k : String}
    {f : CanonicalPlace → CanonicalPlace} {p : String × CanonicalPlace}
    (hp : p ∈ updateEntry m k f) : ∃ q ∈ m, p = q ∨ p = (q.1, f q.2) := by
  induction m with
  | nil => simp [updateEntry] at hp
  | cons q m ih =>
    rw [updateEntry] at hp
    rcases List.mem_cons.mp hp with h | h
    · refine ⟨q, List.mem_cons_self _ _, ?_⟩
      by_cases hq : q.1 = k
      · rw [if_pos hq] at h
        exact Or.inr h
      · rw [if_neg hq] at h
        exact Or.inl h
    · obtain ⟨q', hq', h'⟩ := ih h
      exact ⟨q', List.mem_cons_of_mem _ hq', h'⟩

theorem entry_invariant_addEntry (P : String × CanonicalPlace → Prop) (m : PlaceMap)
    (k : String) (f : CanonicalPlace → CanonicalPlace) (fresh : CanonicalPlace)
    (hm : ∀ p ∈ m, P p) (hf : ∀ p ∈ m, P p → P (p.1, f p.2)) (hfresh : P (k, fresh)) :
    ∀ p ∈ addEntry m k f fresh, P p := by
  intro p hp
  unfold addEntry at hp
  by_cases hc : containsKey m k = true
  · rw [if_pos hc] at hp
    obtain ⟨q, hq, h | h⟩ := mem_updateEntry hp
    · exact h ▸ hm q hq
    · exact h ▸ hf q hq (hm q hq)
  · rw [if_neg hc] at hp
    rcases List.mem_append.mp hp with h | h
    · exact hm p h
    · rw [List.mem_singleton.mp h]
      exact hfresh

theorem entry_invariant_foldl (P : String × CanonicalPlace → Prop)
    (add : PlaceMap → Candidate → PlaceMap)
    (hadd : ∀ m c, (∀ p ∈ m, P p) → ∀ p ∈ add m c, P p) :
    ∀ (l : List Candidate) (m : PlaceMap), (∀ p ∈ m, P p) →
      ∀ p ∈ l.foldl add m, P p := by
  intro l
  induction l with
  | nil => intro m hm; exact hm
  | cons c l ih =>
    intro m hm
    rw [List.foldl_cons]
    exact ih _ (hadd m c hm)

theorem goodNames_add_spacy (m : PlaceMap) (c : Candidate)
    (hm : ∀ p ∈ m, pyLower p.2.name = p.1) :
    ∀ p ∈ add_spacy_place m c, pyLower p.2.name = p.1 := by
  rw [add_spacy_eq_addEntry]
  exact entry_invariant_addEntry _ m _ _ _ hm (fun p _ hP => hP) rfl

theorem goodNames_add_gemini (m : PlaceMap) (c : Candidate)
    (hm : ∀ p ∈ m, pyLower p.2.name = p.1) :
    ∀ p ∈ add_gemini_place m c, pyLower p.2.name = p.1 := by
  rw [add_gemini_eq_addEntry]
  refine entry_invariant_addEntry _ m _ _ _ hm (fun p _ hP => ?_) rfl
  show pyLower (gemini_update c p.2).name = p.1
  rw [gemini_update_name]
  exact hP

theorem goodNames_combine_alist (a b : List Candidate) :
    ∀ p ∈ combine_alist a b, pyLower p.2.name = p.1 := by
  unfold combine_alist
  exact entry_invariant_foldl _ _ goodNames_add_gemini b _
    (entry_invariant_foldl _ _ goodNames_add_spacy a [] (by simp))

theorem neutral_add_spacy (m : PlaceMap) (c : Candidate)
    (hm : ∀ p ∈ m, p.2.sentiment = "neutral") :
    ∀ p ∈ add_spacy_place m c, p.2.sentiment = "neutral" := by
  rw [add_spacy_eq_addEntry]
  exact entry_invariant_addEntry _ m _ _ _ hm (fun p _ hP => hP) rfl

theorem neutral_spacy_foldl (a : List Candidate) :
    ∀ p ∈ a.foldl add_spacy_place [], p.2.sentiment = "neutral" :=
  entry_invariant_foldl _ _ neutral_add_spacy a [] (by simp)

theorem keysOf_combine_alist (a b : List Candidate) :
    keysOf (combine_alist a b) = firstSeenAux [] ((a ++ b).map candKey) := by
  unfold combine_alist
  rw [keysOf_foldl _ keysOf_add_gemini, keysOf_foldl _ keysOf_add_spacy]
  simp only [keysOf_nil, List.nil_append]
  rw [List.map_append, firstSeenAux_append, List.nil_append]

theorem nodup_keys_combine_alist (a b : List Candidate) :
    (keysOf (combine_alist a b)).Nodup := by
  rw [keysOf_combine_alist]
  exact nodup_firstSeenAux _ _

theorem mentionsAt_combine_alist (a b : List Candidate) (k : String) :
    mentionsAt (combine_alist a b) k = countKey a k + countKey b k := by
  unfold combine_alist
  rw [mentionsAt_foldl _ mentionsAt_add_gemini, mentionsAt_foldl _ mentionsAt_add_spacy]
  simp [mentionsAt, lookupKey]

theorem mentionsAt_eq_of_lookup {m : PlaceMap} {k : String} {cp : CanonicalPlace}
    (h : lookupKey m k = some cp) : mentionsAt m k = cp.mentions := by
  unfold mentionsAt
  rw [h]

theorem lookup_none_combine_alist (a b : List Candidate) (k : String) :
    lookupKey (combine_alist a b) k = none ↔
      (countKey a k = 0 ∧ countKey b k = 0) := by
  unfold combine_alist
  rw [lookup_none_foldl _ lookup_none_add_gemini, lookup_none_foldl _ lookup_none_add_spacy]
  simp [lookupKey]

theorem countKey_append (a b : List Candidate) (k : String) :
    countKey (a ++ b) k = countKey a k + countKey b k := by
  induction a with
  | nil => simp [countKey]
  | cons c l ih =>
    rw [List.cons_append, countKey, countKey, ih]
    omega

theorem countKey_eq_count_map (l : List Candidate) (k : String) :
    countKey l k = (l.map candKey).count k := by
  induction l with
  | nil => simp [countKey]
  | cons c l ih =>
    rw [countKey, List.map_cons, List.count_cons, ih]
    by_cases hk : candKey c = k
    · simp [hk, Nat.add_comm]
    · have hk' : ¬(candKey c == k) = true := by simpa using hk
      simp [hk, hk']

theorem countKey_pos_of_mem_map {l : List Candidate} {k : String}
    (h : k ∈ l.map candKey) : 0 < countKey l k := by
  rw [countKey_eq_count_map]
  exact List.count_pos_iff.mpr h

theorem findFirst_eq_none_iff (l : List Candidate) (k : String) :
    findFirst l k = none ↔ countKey l k = 0 := by
  induction l with
  | nil => simp [findFirst, countKey]
  | cons c l ih =>
    rw [findFirst, countKey]
    by_cases hk : candKey c = k
    · simp [hk]
    · simp [hk, ih]

theorem findFirst_append_of_some {a : List Candidate} {k : String} {c : Candidate}
    (h : findFirst a k = some c) (b : List Candidate) :
    findFirst (a ++ b) k = some c := by
  induction a with
  | nil => simp [findFirst] at h
  | cons c0 l ih =>
    rw [findFirst] at h
    rw [List.cons_append, findFirst]
    by_cases hk : candKey c0 = k
    · rwa [if_pos hk] at h ⊢
    · rw [if_neg hk] at h ⊢
      exact ih h

theorem findFirst_append_of_none {a : List Candidate} {k : String}
    (h : findFirst a k = none) (b : List Candidate) :
    findFirst (a ++ b) k = findFirst b k := by
  induction a with
  | nil => simp
  | cons c0 l ih =>
    rw [findFirst] at h
    rw [List.cons_append, findFirst]
    by_cases hk : candKey c0 = k
    · rw [if_pos hk] at h
      cases h
    · rw [if_neg hk] at h
      rw [if_neg hk]
      exact ih h

theorem findFirst_mem {l : List Candidate} {k : String} {c : Candidate}
    (h : findFirst l k = some c) : c ∈ l := by
  induction l with
  | nil => simp [findFirst] at h
  | cons c0 l ih =>
    rw [findFirst] at h
    by_cases hk : candKey c0 = k
    · rw [if_pos hk] at h
      cases h
      exact List.mem_cons_self _ _
    · rw [if_neg hk] at h
      exact List.mem_cons_of_mem _ (ih h)

theorem findFirst_key {l : List Candidate} {k : String} {c : Candidate}
    (h : findFirst l k = some c) : candKey c = k := by
  induction l with
  | nil => simp [findFirst] at h
  | cons c0 l ih =>
    rw [findFirst] at h
    by_cases hk : candKey c0 = k
    · rw [if_pos hk] at h
      cases h
      exact hk
    · rw [if_neg hk] at h
      exact ih h

theorem gemini_update_sentiment (c : Candidate) (cp : CanonicalPlace) :
    (gemini_update c cp).sentiment =
      match c.sentiment with
      | some s => if s ≠ "neutral" then s else cp.sentiment
      | none => cp.sentiment := by
  unfold gemini_update
  cases c.sentiment with
  | none => rfl
  | some s =>
    by_cases hs : s ≠ "neutral" <;> simp [hs]

theorem getLast?_getD_cons (l : List String) : ∀ (a d : String),
    ((a :: l).getLast?).getD d = (l.getLast?).getD a := by
  induction l with
  | nil => intro a d; simp
  | cons b bs ih =>
    intro a d
    rw [List.getLast?_cons_cons, ih b d, ih b a]

theorem sentiment_foldl_gemini :
    ∀ (l : List Candidate) (m : PlaceMap) (k : String) (cp : CanonicalPlace),
      lookupKey m k = some cp →
      ∃ cp', lookupKey (l.foldl add_gemini_place m) k = some cp' ∧
        cp'.sentiment = ((nonNeutralSentiments l k).getLast?).getD cp.sentiment := by
  intro l
  induction l with
  | nil =>
    intro m k cp h
    exact ⟨cp, h, by simp [nonNeutralSentiments]⟩
  | cons c l ih =>
    intro m k cp h
    rw [List.foldl_cons]
    by_cases hk : candKey c = k
    · subst hk
      have hadd : lookupKey (add_gemini_place m c) (candKey c) =
          some (gemini_update c cp) := by
        rw [add_gemini_eq_addEntry, lookupKey_addEntry_self, h]
      obtain ⟨cp', h1, h2⟩ := ih (add_gemini_place m c) (candKey c) _ hadd
      refine ⟨cp', h1, ?_⟩
      rw [h2, gemini_update_sentiment, nonNeutralSentiments, if_pos rfl]
      cases hs : c.sentiment with
      | none => rfl
      | some s =>
        dsimp only
        by_cases hns : s ≠ "neutral"
        · rw [if_pos hns, if_pos hns, getLast?_getD_cons]
        · rw [if_neg hns, if_neg hns]
    · have hne : lookupKey (add_gemini_place m c) k = lookupKey m k :=
        lookup_ne_add_gemini m c (fun he => hk he.symm)
      obtain ⟨cp', h1, h2⟩ := ih (add_gemini_place m c) k cp (hne.trans h)
      refine ⟨cp', h1, ?_⟩
      rw [h2, nonNeutralSentiments, if_neg hk]

theorem spacy_fold_lookup_exists {a : List Candidate} {k : String}
    (h : 0 < countKey a k) :
    ∃ cp, lookupKey (a.foldl add_spacy_place []) k = some cp := by
  cases hl : lookupKey (a.foldl add_spacy_place []) k with
  | some cp => exact ⟨cp, rfl⟩
  | none =>
    rw [lookup_none_foldl _ lookup_none_add_spacy] at hl
    omega

theorem result_names_eq_keys (a b : List Candidate) :
    (combine_place_extractions a b).map (fun cp => pyLower cp.name) =
      keysOf (combine_alist a b) := by
  unfold combine_place_extractions keysOf
  rw [List.map_map]
  exact List.map_congr_left fun p hp => goodNames_combine_alist a b p hp

theorem mem_combine_exists_key {a b : List Candidate} {cp : CanonicalPlace}
    (h : cp ∈ combine_place_extractions a b) :
    ∃ k, lookupKey (combine_alist a b) k = some cp ∧ pyLower cp.name = k := by
  unfold combine_place_extractions at h
  obtain ⟨p, hp, hpe⟩ := List.mem_map.mp h
  subst hpe
  exact ⟨p.1, lookupKey_of_mem hp (nodup_keys_combine_alist a b),
    goodNames_combine_alist a b p hp⟩

theorem lookup_combine_mem {a b : List Candidate} {k : String} {cp : CanonicalPlace}
    (h : lookupKey (combine_alist a b) k = some cp) :
    cp ∈ combine_place_extractions a b := by
  unfold combine_place_extractions
  exact List.mem_map_of_mem Prod.snd (lookupKey_mem h)

theorem truthyVals_cons_some (x : ℚ) (hx : x ≠ 0) (rest : List (Option ℚ)) :
    truthyVals (some x :: rest) = x :: truthyVals rest := by
  simp [truthyVals, hx]

theorem filterMap_lat_eq_completeCoords :
    ∀ (places : List HPlace), (∀ p ∈ places, p.lat.isSome ↔ p.lng.isSome) →
      places.filterMap (·.lat) = (completeCoords places).map Prod.fst ∧
      places.filterMap (·.lng) = (completeCoords places).map Prod.snd := by
  intro places
  induction places with
  | nil => intro _; simp [completeCoords]
  | cons p ps ih =>
    intro h
    have hp := h p (List.mem_cons_self _ _)
    have hps := ih fun q hq => h q (List.mem_cons_of_mem _ hq)
    cases hp1 : p.lat with
    | some x =>
      cases hp2 : p.lng with
      | some y =>
        simp only [List.filterMap_cons, hp1, hp2, completeCoords] at hps ⊢
        simp [hps.1, hps.2, completeCoords]
      | none =>
        rw [hp1, hp2] at hp
        simp at hp
    | none =>
      cases hp2 : p.lng with
      | some y =>
        rw [hp1, hp2] at hp
        simp at hp
      | none =>
        simp only [List.filterMap_cons, hp1, hp2, completeCoords] at hps ⊢
        simp [hps.1, hps.2, completeCoords]

theorem geocode_places_foldl (provider : String → GeoResponse)
    (api_key : Option String) :
    ∀ (places : List InputPlace) (acc : List MergedPlace),
      places.foldl
        (fun geocoded_places place =>
          match geocode_place provider api_key place.name with
          | some g => geocoded_places ++ [merge_place place g]
          | none => geocoded_places) acc =
      acc ++ places.filterMap
        (fun p => (geocode_place provider api_key p.name).map (merge_place p)) := by
  intro places
  induction places with
  | nil => intro acc; simp
  | cons p ps ih =>
    intro acc
    rw [List.foldl_cons]
    cases hg : geocode_place provider api_key p.name with
    | some g =>
      rw [ih]
      simp [List.filterMap_cons, hg, List.append_assoc]
    | none =>
      rw [ih]
      simp [List.filterMap_cons, hg]

/-- C1: for candidate lists `a`, `b` that are non-empty and whose candidates'
merge keys (stripped, lower-cased names) are pairwise distinct — i.e. the
lists are disjoint with no case-insensitive name overlap — the merge result
has length `len(a) + len(b)` and every entry has `mentions = 1`; a key
occurring exactly once in `a` and exactly once in `b` yields a merged entry
with `mentions = 2`; and in general the entry at key `k` has `mentions` equal
to the total number of occurrences of `k` across both extractors. -/
theorem C1_merge_mention_counts (a b : List Candidate) :
    (a ≠ [] → b ≠ [] → ((a ++ b).map candKey).Nodup →
      (combine_place_extractions a b).length = a.length + b.length ∧
      ∀ cp ∈ combine_place_extractions a b, cp.mentions = 1) ∧
    (∀ k, countKey a k = 1 → countKey b k = 1 →
      ∃ cp ∈ combine_place_extractions a b,
        pyLower cp.name = k ∧ cp.mentions = 2) ∧
    (∀ k cp, lookupKey (combine_alist a b) k = some cp →
      cp.mentions = countKey a k + countKey b k) := by
  refine ⟨fun _ _ hnd => ?_, fun k h1 h2 => ?_, fun k cp hl => ?_⟩
  · have hkeys : keysOf (combine_alist a b) = (a ++ b).map candKey := by
      rw [keysOf_combine_alist]
      exact firstSeenAux_of_nodup _ [] (fun x _ hx => by simp at hx) hnd
    constructor
    · have e1 : (combine_place_extractions a b).length = (combine_alist a b).length :=
        List.length_map _ _
      have e2 : (keysOf (combine_alist a b)).length = (combine_alist a b).length :=
        List.length_map _ _
      rw [e1, ← e2, hkeys, List.length_map, List.length_append]
    · intro cp hcp
      obtain ⟨k, hl, _⟩ := mem_combine_exists_key hcp
      have hm : countKey a k + countKey b k = cp.mentions := by
        have hma := mentionsAt_combine_alist a b k
        rw [mentionsAt_eq_of_lookup hl] at hma
        omega
      have hkmem : k ∈ (a ++ b).map candKey := by
        rw [← hkeys]
        exact (containsKey_iff_mem _ _).mp
          ((containsKey_iff_lookup_isSome _ _).mpr (by simp [hl]))
      have hcount : countKey (a ++ b) k = 1 := by
        rw [countKey_eq_count_map]
        exact List.count_eq_one_of_mem hnd hkmem
      rw [countKey_append] at hcount
      omega
  · have hnn : ¬lookupKey (combine_alist a b) k = none := by
      rw [lookup_none_combine_alist]
      rintro ⟨x, _⟩
      omega
    cases hl : lookupKey (combine_alist a b) k with
    | none => exact absurd hl hnn
    | some cp =>
      refine ⟨cp, lookup_combine_mem hl,
        goodNames_combine_alist a b _ (lookupKey_mem hl), ?_⟩
      have hma := mentionsAt_combine_alist a b k
      rw [mentionsAt_eq_of_lookup hl] at hma
      omega
  · have hma := mentionsAt_combine_alist a b k
    rw [mentionsAt_eq_of_lookup hl] at hma
    omega

/-- Witness for C1 at concrete inputs: disjoint singletons merge to two
entries; a name occurring once in each list gets `mentions = 2`. -/
theorem C1_merge_mention_counts_witness :
    (combine_place_extractions [⟨"Paris", none, none⟩]
      [⟨"Rome", none, none⟩]).length = 1 + 1 ∧
    (∃ cp ∈ combine_place_extractions [⟨"Rome", none, none⟩]
        [⟨"Rome", none, some "negative"⟩],
      pyLower cp.name = "rome" ∧ cp.mentions = 2) := by
  constructor
  · exact ((C1_merge_mention_counts _ _).1 (by decide) (by decide) (by decide)).1
  · exact (C1_merge_mention_counts _ _).2.1 "rome" (by decide) (by decide)

/-- C2: an entry whose key occurs in extractor A's list is created with
sentiment `"neutral"`, and its final sentiment is the last non-neutral
sentiment among extractor B's candidates for that key — `"neutral"` when
there is none, so neutral or absent B sentiments never overwrite. -/
theorem C2_sentiment_reconciliation (a b : List Candidate) (k : String)
    (h : 0 < countKey a k) :
    ∃ cp ∈ combine_place_extractions a b, pyLower cp.name = k ∧
      cp.sentiment = ((nonNeutralSentiments b k).getLast?).getD "neutral" := by
  obtain ⟨cpA, hA⟩ := spacy_fold_lookup_exists h
  have hneutral : cpA.sentiment = "neutral" :=
    neutral_spacy_foldl a _ (lookupKey_mem hA)
  obtain ⟨cp', h1, h2⟩ := sentiment_foldl_gemini b _ k cpA hA
  have h1' : lookupKey (combine_alist a b) k = some cp' := h1
  refine ⟨cp', lookup_combine_mem h1',
    goodNames_combine_alist a b _ (lookupKey_mem h1'), ?_⟩
  rw [h2, hneutral]

/-- Witness for C2: the spec's two Rome examples — a negative B sentiment
overwrites A's default, a neutral one leaves it `"neutral"`. -/
theorem C2_sentiment_reconciliation_witness :
    (∃ cp ∈ combine_place_extractions [⟨"Rome", none, none⟩]
        [⟨"Rome", none, some "negative"⟩], pyLower cp.name = "rome" ∧
      cp.sentiment = ((nonNeutralSentiments
        [⟨"Rome", none, some "negative"⟩] "rome").getLast?).getD "neutral") ∧
    ((nonNeutralSentiments
      [⟨"Rome", none, some "negative"⟩] "rome").getLast?).getD "neutral" =
      "negative" ∧
    (∃ cp ∈ combine_place_extractions [⟨"Rome", none, none⟩]
        [⟨"Rome", none, some "neutral"⟩], pyLower cp.name = "rome" ∧
      cp.sentiment = ((nonNeutralSentiments
        [⟨"Rome", none, some "neutral"⟩] "rome").getLast?).getD "neutral") ∧
    ((nonNeutralSentiments
      [⟨"Rome", none, some "neutral"⟩] "rome").getLast?).getD "neutral" =
      "neutral" :=
  ⟨C2_sentiment_reconciliation _ _ "rome" (by decide), by decide,
   C2_sentiment_reconciliation _ _ "rome" (by decide), by decide⟩

/-- C3: the merge result lists entries in the order their keys are first
seen traversing all of A then all of B; in particular
A = [Paris, Rome], B = [Rome, Berlin] gives [Paris, Rome, Berlin]. -/
theorem C3_merge_first_seen_order (a b : List Candidate) :
    (combine_place_extractions a b).map (fun cp => pyLower cp.name) =
      firstSeenAux [] ((a ++ b).map candKey) ∧
    (combine_place_extractions [⟨"Paris", none, none⟩, ⟨"Rome", none, none⟩]
        [⟨"Rome", none, none⟩, ⟨"Berlin", none, none⟩]).map
      CanonicalPlace.name = ["Paris", "Rome", "Berlin"] := by
  refine ⟨?_, by decide⟩
  rw [result_names_eq_keys, keysOf_combine_alist]

/-- C4: merge results never contain two entries with the same lower-cased
name; merging two empty lists gives `[]`; and with one empty input every
entry of the result carries the (stripped) name of a candidate of the other
input. -/
theorem C4_merge_uniqueness (a b : List Candidate) :
    ((combine_place_extractions a b).map (fun cp => pyLower cp.name)).Nodup ∧
    combine_place_extractions [] [] = [] ∧
    (∀ cp ∈ combine_place_extractions a [], ∃ c ∈ a, cp.name = pyStrip c.name) ∧
    (∀ cp ∈ combine_place_extractions [] b, ∃ c ∈ b, cp.name = pyStrip c.name) := by
  refine ⟨?_, rfl, ?_, ?_⟩
  · rw [result_names_eq_keys]
    exact nodup_keys_combine_alist a b
  · intro cp hcp
    obtain ⟨k, hl, _⟩ := mem_combine_exists_key hcp
    have hl' : lookupKey (a.foldl add_spacy_place []) k = some cp := hl
    rcases nameType_foldl add_spacy_place lookup_ne_add_spacy
        lookup_some_add_spacy nameType_self_add_spacy a [] k cp hl' with
      ⟨cp0, g1, _, _⟩ | ⟨_, c, g2, g3, _⟩
    · simp [lookupKey] at g1
    · exact ⟨c, findFirst_mem g2, g3⟩
  · intro cp hcp
    obtain ⟨k, hl, _⟩ := mem_combine_exists_key hcp
    have hl' : lookupKey (b.foldl add_gemini_place []) k = some cp := hl
    rcases nameType_foldl add_gemini_place lookup_ne_add_gemini
        lookup_some_add_gemini nameType_self_add_gemini b [] k cp hl' with
      ⟨cp0, g1, _, _⟩ | ⟨_, c, g2, g3, _⟩
    · simp [lookupKey] at g1
    · exact ⟨c, findFirst_mem g2, g3⟩

/-- Witness for C4 at concrete inputs: "Paris" and "paris" collapse to one
entry so the name list is duplicate-free, and a one-sided merge takes its
name from the non-empty side. -/
theorem C4_merge_uniqueness_witness :
    ((combine_place_extractions [⟨"Paris", none, none⟩]
        [⟨"paris", none, none⟩]).map (fun cp => pyLower cp.name)).Nodup ∧
    (∃ c ∈ ([⟨"Paris", none, none⟩] : List Candidate),
      (⟨"Paris", "Unknown", "neutral", 1⟩ : CanonicalPlace).name =
        pyStrip c.name) := by
  refine ⟨(C4_merge_uniqueness _ _).1, ?_⟩
  exact (C4_merge_uniqueness [⟨"Paris", none, none⟩] []).2.2.1
    ⟨"Paris", "Unknown", "neutral", 1⟩ (by decide)

/-- C5 counterexample: the claim says two mentions whose names differ only in
whitespace are distinct entries, but `"Paris"` and `"Paris "` (differing only
in one trailing space, not only in case) are merged into a single entry with
`mentions = 2` because the code strips leading/trailing whitespace before
building the comparison key. -/
theorem C5_whitespace_counterexample :
    (combine_place_extractions [⟨"Paris", none, none⟩]
      [⟨"Paris ", none, none⟩]).length = 1 ∧
    "Paris" ≠ "Paris " := by decide

/-- C5 amended: name comparison lower-cases and strips leading/trailing
whitespace but normalizes nothing else — two mentions are merged exactly when
their stripped, lower-cased names coincide, so mentions differing in internal
whitespace or in trailing punctuation stay distinct while mentions differing
only in case or in leading/trailing whitespace collapse. -/
theorem C5_key_normalization (c1 c2 : Candidate) :
    (combine_place_extractions [c1] [c2]).length =
      if candKey c1 = candKey c2 then 1 else 2 := by
  unfold combine_place_extractions
  rw [List.length_map]
  show (add_gemini_place (add_spacy_place [] c1) c2).length = _
  have h1 : add_spacy_place [] c1 = [(candKey c1, freshSpacy c1)] := rfl
  rw [h1, add_gemini_eq_addEntry]
  unfold addEntry
  by_cases hk : candKey c1 = candKey c2
  · have hc : containsKey [(candKey c1, freshSpacy c1)] (candKey c2) = true := by
      simp [containsKey, hk]
    rw [if_pos hc, if_pos hk]
    simp [updateEntry]
  · have hc : ¬containsKey [(candKey c1, freshSpacy c1)] (candKey c2) = true := by
      simp [containsKey, hk]
    rw [if_neg hc, if_neg hk]
    simp

/-- C10: every merged entry's stored name (the first-seen candidate's name
with leading/trailing whitespace stripped, original casing preserved) and
type (first-seen candidate's, defaulting to `"Unknown"`) come from the first
candidate with that key in A then B; later duplicates never change them. -/
theorem C10_first_seen_name_type (a b : List Candidate) (k : String)
    (cp : CanonicalPlace) (h : lookupKey (combine_alist a b) k = some cp) :
    ∃ c, findFirst (a ++ b) k = some c ∧ cp.name = pyStrip c.name ∧
      cp.type = c.type.getD "Unknown" := by
  have h' : lookupKey (b.foldl add_gemini_place
      (a.foldl add_spacy_place [])) k = some cp := h
  rcases nameType_foldl add_gemini_place lookup_ne_add_gemini
      lookup_some_add_gemini nameType_self_add_gemini b _ k cp h' with
    ⟨cpA, h1, h2, h3⟩ | ⟨h1, c, h2, h3, h4⟩
  · rcases nameType_foldl add_spacy_place lookup_ne_add_spacy
        lookup_some_add_spacy nameType_self_add_spacy a [] k cpA h1 with
      ⟨cp0, g1, _, _⟩ | ⟨_, c, g2, g3, g4⟩
    · simp [lookupKey] at g1
    · exact ⟨c, findFirst_append_of_some g2 b, h2.trans g3, h3.trans g4⟩
  · have hnone : findFirst a k = none := by
      rw [findFirst_eq_none_iff]
      exact ((lookup_none_foldl _ lookup_none_add_spacy a [] k).mp h1).2
    refine ⟨c, ?_, h3, h4⟩
    rw [findFirst_append_of_none hnone]
    exact h2

/-- Witness for C10: a later Gemini duplicate with a different raw name,
type and sentiment changes only `mentions` and `sentiment`; name and type
stay those of the first-seen spaCy candidate. -/
theorem C10_first_seen_name_type_witness :
    ∃ c, findFirst ([⟨"Rome ", some "GPE", none⟩] ++
        [⟨"rome", some "city", some "negative"⟩]) "rome" = some c ∧
      (⟨"Rome", "GPE", "negative", 2⟩ : CanonicalPlace).name = pyStrip c.name ∧
      (⟨"Rome", "GPE", "negative", 2⟩ : CanonicalPlace).type =
        c.type.getD "Unknown" :=
  C10_first_seen_name_type [⟨"Rome ", some "GPE", none⟩]
    [⟨"rome", some "city", some "negative"⟩] "rome" _ (by decide)

/-- C6: for a non-empty location list in which every place carries valid
(present, non-zero) coordinates, the zoom is the fixed threshold table
applied to the larger of the latitude span and longitude span; the branches
are strict `>` tests in order `>20→4, >10→6, >5→8, >1→10, else→12`, so a
span exactly at a boundary falls to the next branch (20 → 6, 10 → 8,
5 → 10, 1 → 12). -/
theorem C6_zoom_thresholds (locations : List MGLocation)
    (hne : locations ≠ [])
    (hlat : ∀ loc ∈ locations, ∃ x, loc.latitude = some x ∧ x ≠ 0)
    (hlng : ∀ loc ∈ locations, ∃ y, loc.longitude = some y ∧ y ≠ 0) :
    (mg_create_folium_map_params locations).2 =
      zoomFor (max
        (listMax (truthyVals (locations.map (·.latitude))) -
          listMin (truthyVals (locations.map (·.latitude))))
        (listMax (truthyVals (locations.map (·.longitude))) -
          listMin (truthyVals (locations.map (·.longitude))))) ∧
    zoomFor 20 = 6 ∧ zoomFor 10 = 8 ∧ zoomFor 5 = 10 ∧ zoomFor 1 = 12 := by
  refine ⟨?_, by norm_num [zoomFor], by norm_num [zoomFor],
    by norm_num [zoomFor], by norm_num [zoomFor]⟩
  cases locations with
  | nil => exact absurd rfl hne
  | cons loc ls =>
    obtain ⟨x, hx1, hx2⟩ := hlat loc (List.mem_cons_self _ _)
    obtain ⟨y, hy1, hy2⟩ := hlng loc (List.mem_cons_self _ _)
    have hlats : truthyVals ((loc :: ls).map (·.latitude)) ≠ [] := by
      rw [List.map_cons, hx1, truthyVals_cons_some x hx2]
      simp
    have hlngs : truthyVals ((loc :: ls).map (·.longitude)) ≠ [] := by
      rw [List.map_cons, hy1, truthyVals_cons_some y hy2]
      simp
    simp only [mg_create_folium_map_params]
    rw [if_pos ⟨hlats, hlngs⟩]

/-- Witness for C6 at a concrete location list with latitude span 24. -/
theorem C6_zoom_thresholds_witness :
    (mg_create_folium_map_params [⟨some 1, some 2⟩, ⟨some 25, some 3⟩]).2 =
      zoomFor (max
        (listMax (truthyVals ([(⟨some 1, some 2⟩ : MGLocation),
            ⟨some 25, some 3⟩].map (·.latitude))) -
          listMin (truthyVals ([(⟨some 1, some 2⟩ : MGLocation),
            ⟨some 25, some 3⟩].map (·.latitude))))
        (listMax (truthyVals ([(⟨some 1, some 2⟩ : MGLocation),
            ⟨some 25, some 3⟩].map (·.longitude))) -
          listMin (truthyVals ([(⟨some 1, some 2⟩ : MGLocation),
            ⟨some 25, some 3⟩].map (·.longitude))))) ∧
    zoomFor 20 = 6 ∧ zoomFor 10 = 8 ∧ zoomFor 5 = 10 ∧ zoomFor 1 = 12 := by
  refine C6_zoom_thresholds _ (by simp) ?_ ?_
  · intro loc hloc
    rcases List.mem_cons.mp hloc with rfl | hloc
    · exact ⟨1, rfl, by norm_num⟩
    · rcases List.mem_cons.mp hloc with rfl | hloc
      · exact ⟨25, rfl, by norm_num⟩
      · simp at hloc
  · intro loc hloc
    rcases List.mem_cons.mp hloc with rfl | hloc
    · exact ⟨2, rfl, by norm_num⟩
    · rcases List.mem_cons.mp hloc with rfl | hloc
      · exact ⟨3, rfl, by norm_num⟩
      · simp at hloc

/-- C7 counterexample: the claim says the center is the mean over exactly the
places carrying both coordinates, but `create_folium_map` averages the
present `lat` values and the present `lng` values independently. For
places = [{A, lat 10, lng 20}, {B, lat 30, no lng}] the spec's mean over
complete pairs is (10, 20) while the code computes (20, 20). -/
theorem C7_partial_place_counterexample :
    specCenter [⟨"A", some 10, some 20, none⟩, ⟨"B", some 30, none, none⟩] =
      some (10, 20) ∧
    (create_folium_map_params
      [⟨"A", some 10, some 20, none⟩, ⟨"B", some 30, none, none⟩]).1 =
      (20, 20) ∧
    ((20 : ℚ), (20 : ℚ)) ≠ ((10 : ℚ), (20 : ℚ)) := by
  refine ⟨?_, ?_, by norm_num⟩
  · have hcc : completeCoords [⟨"A", some 10, some 20, none⟩,
        ⟨"B", some 30, none, none⟩] = [(10, 20)] := by
      simp [completeCoords, List.filterMap_cons]
    rw [specCenter, hcc]
    norm_num [listSum]
  · have h1 : List.filterMap (fun x => x.lat)
        [(⟨"A", some 10, some 20, none⟩ : HPlace), ⟨"B", some 30, none, none⟩] =
        [10, 30] := by
      simp [List.filterMap_cons]
    have h2 : List.filterMap (fun x => x.lng)
        [(⟨"A", some 10, some 20, none⟩ : HPlace), ⟨"B", some 30, none, none⟩] =
        [20] := by
      simp [List.filterMap_cons]
    simp only [create_folium_map_params, h1, h2]
    rw [if_neg (by simp)]
    norm_num [listSum]

/-- C7 amended: the marker set contains only places carrying both
coordinates; the empty list gives center (0, 0) and zoom 2; and the center
averages the `lat` values of lat-carrying places and the `lng` values of
lng-carrying places independently — hence whenever every place carries both
coordinates or neither, the center equals the arithmetic mean of the
complete lat/lng pairs (but a place with exactly one coordinate does
contribute that one coordinate to the corresponding average). -/
theorem C7_center_and_marker_filtering (places : List HPlace) :
    (∀ p ∈ folium_marker_places places, p.lat.isSome ∧ p.lng.isSome) ∧
    create_folium_map_params [] = ((0, 0), 2) ∧
    ((∀ p ∈ places, p.lat.isSome ↔ p.lng.isSome) →
      ∀ c, specCenter places = some c →
        (create_folium_map_params places).1 = c) := by
  refine ⟨?_, rfl, fun hiff c hc => ?_⟩
  · intro p hp
    have := List.mem_filter.mp hp
    simpa using this.2
  · obtain ⟨hlat, hlng⟩ := filterMap_lat_eq_completeCoords places hiff
    cases hplaces : places with
    | nil =>
      rw [hplaces] at hc
      simp [specCenter, completeCoords] at hc
    | cons p ps =>
      cases hcc : completeCoords places with
      | nil =>
        rw [specCenter, hcc] at hc
        cases hc
      | cons q qs =>
        rw [specCenter, hcc] at hc
        simp only [Option.some.injEq] at hc
        subst hc
        rw [hplaces] at hlat hlng
        simp only [create_folium_map_params, hlat, hlng]
        rw [hplaces] at hcc
        rw [hcc]
        have hne1 : ¬((q :: qs).map Prod.fst = [] ∨ (q :: qs).map Prod.snd = []) := by
          simp
        rw [if_neg hne1]
        simp [List.length_map]

/-- Witness for C7: a two-place list where both places carry both
coordinates has its center at the mean of the pairs, and the marker-set and
empty-input parts hold at concrete inputs. -/
theorem C7_center_and_marker_filtering_witness :
    ((⟨"A", some 10, some 20, none⟩ : HPlace).lat.isSome ∧
      (⟨"A", some 10, some 20, none⟩ : HPlace).lng.isSome) ∧
    create_folium_map_params ([] : List HPlace) = ((0, 0), 2) ∧
    (create_folium_map_params [⟨"A", some 10, some 20, none⟩,
      ⟨"B", some 30, some 40, none⟩]).1 = (20, 30) := by
  have h := C7_center_and_marker_filtering
    [⟨"A", some 10, some 20, none⟩, ⟨"B", some 30, some 40, none⟩]
  refine ⟨h.1 ⟨"A", some 10, some 20, none⟩ ?_, h.2.1, h.2.2 ?_ (20, 30) ?_⟩
  · simp [folium_marker_places]
  · simp
  · have hcc : completeCoords [⟨"A", some 10, some 20, none⟩,
        ⟨"B", some 30, some 40, none⟩] = [(10, 20), (30, 40)] := by
      simp [completeCoords, List.filterMap_cons]
    rw [specCenter, hcc]
    norm_num [listSum]

/-- C8: after saving a place list under a name, loading the same name
returns exactly that list; a second save under the same name overwrites the
first unconditionally; and both operations address `data/<name>.json`,
appending the `.json` suffix only when absent. -/
theorem C8_save_load_round_trip (places p1 p2 : List PlaceDoc)
    (filename : String) (store : FileStore) :
    load_map_data filename (save_map_data places filename store) = places ∧
    load_map_data filename
      (save_map_data p2 filename (save_map_data p1 filename store)) = p2 ∧
    (pyEndsWith filename ".json" = false →
      withJsonExt filename = filename ++ ".json") ∧
    (pyEndsWith filename ".json" = true → withJsonExt filename = filename) := by
  refine ⟨?_, ?_, fun h => ?_, fun h => ?_⟩
  · simp [load_map_data, save_map_data, readFile]
  · simp [load_map_data, save_map_data, readFile]
  · simp [withJsonExt, h]
  · simp [withJsonExt, h]

/-- Witness for C8: round trip for a concrete one-place document under the
name "mymap", suffix appended for "mymap" and kept for "trip.json". -/
theorem C8_save_load_round_trip_witness :
    load_map_data "mymap"
      (save_map_data [[("name", Prim.str "Rome")]] "mymap" []) =
      [[("name", Prim.str "Rome")]] ∧
    withJsonExt "mymap" = "mymap" ++ ".json" ∧
    withJsonExt "trip.json" = "trip.json" := by
  have h1 := C8_save_load_round_trip [[("name", Prim.str "Rome")]] [] [] "mymap" []
  have h2 := C8_save_load_round_trip [] [] [] "trip.json" []
  exact ⟨h1.1, h1.2.2.1 (by decide), h2.2.2.2 (by decide)⟩

/-- C9: `geocode_place` returns `none` whenever the call fails, the status
is not `"OK"`, or the result list is empty (and, being a total function in
the embedding, never raises); `geocode_places` equals the in-order filterMap
of successful geocodes, so not-found places are absent and the successes
keep their input order. -/
theorem C9_geocode_error_handling (provider : String → GeoResponse)
    (api_key : Option String) (places : List InputPlace) :
    (∀ name, provider name = .failure →
      geocode_place provider api_key name = none) ∧
    (∀ name status results, provider name = .ok status results →
      status ≠ "OK" ∨ results = [] →
      geocode_place provider api_key name = none) ∧
    geocode_places provider api_key places =
      places.filterMap
        (fun p => (geocode_place provider api_key p.name).map (merge_place p)) := by
  refine ⟨fun name h => ?_, fun name status results h hbad => ?_, ?_⟩
  · unfold geocode_place
    cases api_key <;> simp [h]
  · unfold geocode_place
    cases api_key with
    | none => rfl
    | some key =>
      rcases hbad with hbad | hbad
      · cases results with
        | nil => simp [h]
        | cons r rs => simp [h, hbad]
      · subst hbad
        simp [h]
  · unfold geocode_places
    rw [geocode_places_foldl provider api_key places []]
    simp

/-- Witness for C9: a provider answering `ZERO_RESULTS` with no results makes
`geocode_place` report not-found and keeps the place out of the batch
output. -/
theorem C9_geocode_error_handling_witness :
    geocode_place (fun _ => .ok "ZERO_RESULTS" []) (some "key") "Nowhere" =
      none ∧
    geocode_places (fun _ => .ok "ZERO_RESULTS" ([] : List GeoResult))
      (some "key") [⟨"Nowhere", "Unknown", "neutral", 1⟩] = [] := by
  have h := C9_geocode_error_handling (fun _ => .ok "ZERO_RESULTS" [])
    (some "key") [⟨"Nowhere", "Unknown", "neutral", 1⟩]
  refine ⟨h.2.1 "Nowhere" "ZERO_RESULTS" [] rfl (Or.inr rfl), ?_⟩
  rw [h.2.2]
  simp [geocode_place]

end Story2Map
